import Mathlib

/-!
Verification of the striking-distance keyword pipeline (src/app.py).

The embedding is shallow: text is Lean `String`, case-insensitive matching
lowercases characters via `Char.toLower` (Python `str.lower`), and the
spec's integer fields (`position`, `impressions`) are naturals.  Pandas
dataframes are lists of records; the boolean-mask filters of the source
become `List.filter`, and the row loops become maps/filterMaps over those
lists.
-/

namespace StrikingDistance

/-- Lowercased character sequence of a string (Python `s.lower()` applied
before a containment test). -/
def lcChars (s : String) : List Char := s.toList.map Char.toLower

/-- `check_keyword_presence` (app.py lines 133-137): empty text or empty
keyword gives `false`; otherwise case-insensitive substring containment
(`keyword.lower() in text.lower()`). -/
def check_keyword_presence (keyword text : String) : Bool :=
  if text = "" || keyword = "" then false
  else decide (lcChars keyword <:+: lcChars text)

/-- Position-band bonus of `calculate_striking_distance_opportunities`
(app.py lines 147-157): the three `if/elif` bands with their points and
recommendation strings; a position outside 3..20 contributes nothing. -/
def positionBand (position : Nat) : Nat × List String :=
  if 3 ≤ position ∧ position ≤ 5 then
    (30, ["Very close to top 3 - high priority"])
  else if 6 ≤ position ∧ position ≤ 10 then
    (20, ["On page 1 - good opportunity"])
  else if 11 ≤ position ∧ position ≤ 20 then
    (10, ["On page 2 - worth optimizing"])
  else (0, [])

/-- Loop body of `calculate_striking_distance_opportunities` (app.py lines
143-181) for one row: additive score plus the recommendation list built in
source order (position band, title gap, H1 gap, content gap, impressions).
`impressions` is the value of `row.get('impressions', 0)`. -/
def scoreRecord (position : Nat) (in_title in_h1 in_content : Bool)
    (impressions : Nat) : Nat × List String :=
  let p := positionBand position
  let t := if !in_title then (15, ["Add keyword to title tag"]) else (0, [])
  let h := if !in_h1 then (10, ["Add keyword to H1 tag"]) else (0, [])
  let c := if !in_content then (5, ["Include keyword naturally in content"]) else (0, [])
  let v := if 1000 < impressions then (10, ["High search volume keyword"]) else (0, [])
  (p.1 + t.1 + h.1 + c.1 + v.1, p.2 ++ t.2 ++ h.2 ++ c.2 ++ v.2)

/-- One keyword record (one row of the uploaded dataframe).  Only the
fields the pipeline logic reads are modelled; further payload columns
(`clicks`, `ctr`) are carried through the source untouched and are
omitted here. -/
structure Rec where
  url : String
  keyword : String
  position : Nat
  impressions : Nat
  deriving DecidableEq

/-- True when the blocklist term occurs in the lowercased keyword (app.py
line 362: `keyword.str.lower().str.contains(term)` with the term already
lowercased at line 360; we lowercase the term here, which is the identity
on the source's pre-lowered terms).  `str.contains` would read regex
metacharacters specially; blocklist terms are modelled as literal
substrings, which is `str.contains` on metacharacter-free terms. -/
def kwBlocked (term : String) (r : Rec) : Bool :=
  decide (lcChars term <:+: lcChars r.keyword)

/-- Blocklist passes of `main` (app.py lines 357-364): one sequential
filter pass per term over the shrinking set; each pass appends the rows it
removes to the removed collection, then drops them from the filtered set.
Returns `(filtered, blocklistRemoved)`. -/
def applyBlocklist (blocklist : List String) (rs : List Rec) :
    List Rec × List Rec :=
  match blocklist with
  | [] => (rs, [])
  | term :: rest =>
      let removed := rs.filter (fun r => kwBlocked term r)
      let kept := rs.filter (fun r => !kwBlocked term r)
      let next := applyBlocklist rest kept
      (next.1, removed ++ next.2)

/-- Instrumented variant of `applyBlocklist` that tags every removed
record with the term whose pass removed it; erasing the tags recovers the
source function (`applyBlocklistTagged_eq`). -/
def applyBlocklistTagged (blocklist : List String) (rs : List Rec) :
    List Rec × List (String × Rec) :=
  match blocklist with
  | [] => (rs, [])
  | term :: rest =>
      let removed := rs.filter (fun r => kwBlocked term r)
      let kept := rs.filter (fun r => !kwBlocked term r)
      let next := applyBlocklistTagged rest kept
      (next.1, removed.map (fun r => (term, r)) ++ next.2)

/-- Filter stage of `main` (app.py lines 349-364): position-range filter,
then the minimum-impressions filter when the impressions column is present
(`hasImpr`), then the blocklist passes.  Returns
`(filtered, blocklistRemoved)`. -/
def applyFilters (records : List Rec) (lo hi : Nat) (hasImpr : Bool)
    (minImpr : Nat) (blocklist : List String) : List Rec × List Rec :=
  let pos := records.filter
    (fun r => decide (lo ≤ r.position) && decide (r.position ≤ hi))
  let impr := if hasImpr then
      pos.filter (fun r => decide (minImpr ≤ r.impressions))
    else pos
  applyBlocklist blocklist impr

/-- Stable insertion for an ascending sort by a natural key. -/
def insertAsc {α : Type} (key : α → Nat) (x : α) : List α → List α
  | [] => [x]
  | y :: ys => if key x ≤ key y then x :: y :: ys else y :: insertAsc key x ys

/-- Ascending sort by a natural key, modelling `sort_values('position')`
(app.py line 455).  Pandas' default `kind='quicksort'` guarantees no
order among equal keys, so the model's tie order is not part of the
program's contract; rendered as an insertion sort, and every property
proved about it below is either tie-order independent — membership,
permutation, sortedness — or a concrete evaluation on at most four
elements, where numpy's introsort also performs insertion sort and
produces exactly this order. -/
def sortAscBy {α : Type} (key : α → Nat) (l : List α) : List α :=
  l.foldr (insertAsc key) []

/-- Stable insertion for a descending sort by a natural key. -/
def insertDesc {α : Type} (key : α → Nat) (x : α) : List α → List α
  | [] => [x]
  | y :: ys => if key y ≤ key x then x :: y :: ys else y :: insertDesc key x ys

/-- Descending sort by a natural key, modelling
`sort_values('opportunity_score', ascending=False)` (app.py line 468).
As with `sortAscBy`, pandas' default sort kind makes no tie-order
promise; the theorems below use only tie-order-independent consequences
of this model (membership, permutation, descending sortedness) and
concrete evaluations on arrays small enough that numpy sorts them by
insertion sort too. -/
def sortDescBy {α : Type} (key : α → Nat) (l : List α) : List α :=
  l.foldr (insertDesc key) []

/-- One crawl result (the dict built by `crawl_url` / the sample-content
branch, app.py lines 116-131 and 375-401): the extracted SEO elements plus
a status string, `"success"` on success and an error message otherwise. -/
structure Page where
  url : String
  title : String
  h1 : String
  content : String
  status : String
  deriving DecidableEq

/-- One row of `results` (app.py lines 425-433): the record plus its three
presence signals.  (`page_title` and `optimization_score` are also stored
there; they are derived presentation columns no claim reads.) -/
structure Matched where
  record : Rec
  in_title : Bool
  in_h1 : Bool
  in_content : Bool
  deriving DecidableEq

/-- Presence signals of one record against its crawled page (app.py lines
421-423). -/
def matchRecord (pg : Page) (r : Rec) : Matched :=
  ⟨r, check_keyword_presence r.keyword pg.title,
    check_keyword_presence r.keyword pg.h1,
    check_keyword_presence r.keyword pg.content⟩

/-- Python `url in crawl_results and crawl_results[url]['status'] == 'success'`
(app.py line 418). -/
def fetchSuccess (crawl : String → Option Page) (u : String) : Bool :=
  match crawl u with
  | some pg => pg.status == "success"
  | none => false

/-- Loop body of app.py lines 414-433 for the success branch: the
`results` row a record contributes, if any. -/
def resultRowOf (crawl : String → Option Page) (r : Rec) : Option Matched :=
  match crawl r.url with
  | some pg => if pg.status == "success" then some (matchRecord pg r) else none
  | none => none

/-- The categorization loop of `main` (app.py lines 411-435): every
filtered record whose URL is in the crawl map with success status becomes
a `results` row; every other record contributes `(url, keyword)` to
`urls_not_found`.  The single Python loop appending to two lists is
rendered as two order-preserving `filterMap` passes. -/
def buildResults (crawl : String → Option Page) (filtered : List Rec) :
    List Matched × List (String × String) :=
  (filtered.filterMap (resultRowOf crawl),
    filtered.filterMap (fun r =>
      if fetchSuccess crawl r.url then none else some (r.url, r.keyword)))

/-- One row of `opportunities_df` as used by the merge (app.py lines
175-181 and 463-467): key columns plus score and the joined
recommendation string. -/
structure Opp where
  url : String
  keyword : String
  opportunity_score : Nat
  recommendations : String
  deriving DecidableEq

/-- `calculate_striking_distance_opportunities` (app.py lines 139-183)
applied to a list of matched rows; `hasImpr` records whether the
impressions column is present (`row.get('impressions', 0)` yields the
stored value or 0). -/
def calculate_striking_distance_opportunities (hasImpr : Bool)
    (rows : List Matched) : List Opp :=
  rows.map (fun m =>
    let sr := scoreRecord m.record.position m.in_title m.in_h1 m.in_content
      (if hasImpr then m.record.impressions else 0)
    ⟨m.record.url, m.record.keyword, sr.1, String.intercalate " | " sr.2⟩)

/-- One row of the merged striking-distance frame: the matched row plus
the score columns brought in by the merge (`none` models the NaN columns a
matchless left row would get; every left row here has a match, and a
striking row always scores at least 5, so the `none ↦ 0` sort key below
never collides with a real score). -/
structure Row where
  m : Matched
  opp : Option (Nat × String)
  deriving DecidableEq

/-- `striking_distance.merge(opportunities_df[...], on=['url','keyword'],
how='left')` (app.py lines 463-467): left-order-preserving join; each left
row is paired with every opportunity row sharing its (url, keyword) key —
pandas cross-joins duplicate keys. -/
def mergeScores (left : List Matched) (opps : List Opp) : List Row :=
  match left with
  | [] => []
  | m :: rest =>
      (match opps.filter (fun o =>
          o.url == m.record.url && o.keyword == m.record.keyword) with
        | [] => [⟨m, none⟩]
        | o :: os => (o :: os).map
            (fun o2 => ⟨m, some (o2.opportunity_score, o2.recommendations)⟩)) ++
      mergeScores rest opps

/-- Sort key of the final `sort_values('opportunity_score',
ascending=False)` (app.py line 468). -/
def rowScore (row : Row) : Nat :=
  match row.opp with
  | some s => s.1
  | none => 0

/-- First-appearance-order deduplication with a seen-accumulator, modelling
pandas `Series.unique()` (app.py line 370), which keeps first occurrences
in order. -/
def pdUnique (seen : List String) : List String → List String
  | [] => []
  | u :: us => if seen.contains u then pdUnique seen us
      else u :: pdUnique (u :: seen) us

/-- Inputs of one report generation: sidebar settings plus the uploaded
records and, abstracting the network, the page each URL would fetch to
(both the sample-content branch and real crawling produce one `Page` per
crawled URL; per-URL failures are pages with a non-success status). -/
structure Params where
  lo : Nat
  hi : Nat
  hasImpr : Bool
  minImpr : Nat
  blocklist : List String
  maxUrls : Nat
  records : List Rec
  fetch : String → Page

/-- `filtered_df` after the three filter stages (app.py lines 349-364). -/
def filteredOf (P : Params) : List Rec :=
  (applyFilters P.records P.lo P.hi P.hasImpr P.minImpr P.blocklist).1

/-- The `blocklist_removed` collection (app.py lines 358-363). -/
def blocklistRemovedOf (P : Params) : List Rec :=
  (applyFilters P.records P.lo P.hi P.hasImpr P.minImpr P.blocklist).2

/-- `unique_urls = filtered_df['url'].unique()[:max_urls]` (app.py line
370). -/
def crawledUrlsOf (P : Params) : List String :=
  (pdUnique [] ((filteredOf P).map (fun r => r.url))).take P.maxUrls

/-- The `crawl_results` dict (app.py lines 371-405): one entry per crawled
URL, none for URLs beyond the cap. -/
def crawlMapOf (P : Params) : String → Option Page :=
  fun u => if (crawledUrlsOf P).contains u then some (P.fetch u) else none

/-- The `results` rows (app.py lines 411-433). -/
def resultsOf (P : Params) : List Matched :=
  (buildResults (crawlMapOf P) (filteredOf P)).1

/-- The `urls_not_found` rows (app.py lines 412-435). -/
def notFoundOf (P : Params) : List (String × String) :=
  (buildResults (crawlMapOf P) (filteredOf P)).2

/-- `all_checks_passed` (app.py lines 445-449). -/
def allPassedOf (P : Params) : List Matched :=
  (resultsOf P).filter (fun m => m.in_title && m.in_h1 && m.in_content)

/-- The unsorted striking-distance rows (app.py lines 451-454). -/
def striking0Of (P : Params) : List Matched :=
  (resultsOf P).filter (fun m => !m.in_title || !m.in_h1 || !m.in_content)

/-- `striking_distance` after `.sort_values('position')` (app.py line
455). -/
def striking1Of (P : Params) : List Matched :=
  sortAscBy (fun m => m.record.position) (striking0Of P)

/-- `opportunities_df` (app.py line 462), computed from the
position-sorted striking rows. -/
def opportunitiesOf (P : Params) : List Opp :=
  calculate_striking_distance_opportunities P.hasImpr (striking1Of P)

/-- The merged striking frame before the final sort (app.py lines
463-467). -/
def mergedOf (P : Params) : List Row :=
  mergeScores (striking1Of P) (opportunitiesOf P)

/-- The final striking-distance output (app.py line 468).  The
`len(striking_distance) > 0` guard of the source is omitted: on the empty
list merging and sorting are the identity. -/
def strikingFinalOf (P : Params) : List Row :=
  sortDescBy rowScore (mergedOf P)

/-- The four datasets stored for display/export (app.py lines 470-475). -/
structure Output where
  striking_distance : List Row
  all_checks_passed : List Matched
  blocklist_removed : List Rec
  urls_not_found : List (String × String)

/-- The whole report generation (app.py lines 340-475). -/
def runPipeline (P : Params) : Output :=
  ⟨strikingFinalOf P, allPassedOf P, blocklistRemovedOf P, notFoundOf P⟩

/-- Exactly one of three propositions holds. -/
def ExactlyOneOfThree (a b c : Prop) : Prop :=
  (a ∨ b ∨ c) ∧ ¬ (a ∧ b) ∧ ¬ (a ∧ c) ∧ ¬ (b ∧ c)

/-- Example inputs for the C1 witness: one record whose page fetches
successfully but contains the keyword nowhere, so it is striking. -/
def exP1 : Params :=
  ⟨3, 20, true, 10, [], 50, [⟨"u", "kw", 4, 100⟩],
    fun u => ⟨u, "", "", "", "success"⟩⟩

/-- Example inputs for the C10 witness: two records with distinct URLs and
a crawl cap of one, so the second record's URL is beyond the cap. -/
def exP10 : Params :=
  ⟨3, 20, false, 0, [], 1, [⟨"u1", "a", 4, 0⟩, ⟨"u2", "b", 6, 0⟩],
    fun u => ⟨u, "", "", "", "success"⟩⟩

/-- Example inputs for the C2 counterexample: two records with equal
opportunity scores (50 each) whose filter order is "a" before "b" but
whose positions are 10 and 6. -/
def exP2 : Params :=
  ⟨3, 20, true, 0, [], 50, [⟨"u1", "a", 10, 0⟩, ⟨"u2", "b", 6, 0⟩],
    fun u => ⟨u, "", "", "", "success"⟩⟩

/-- Example inputs for C9: two surviving records duplicating the identity
key ("u", "a") at positions 4 and 6, both striking. -/
def exP9 : Params :=
  ⟨3, 20, true, 0, [], 50, [⟨"u", "a", 4, 0⟩, ⟨"u", "a", 6, 0⟩],
    fun u => ⟨u, "", "", "", "success"⟩⟩

/-- Outcome of one `crawl_url` future (app.py lines 389-401): either a
returned page dict — `crawl_url` itself converts handled HTTP/transport
errors into a page with an error status — or an unexpected exception
propagating out of `future.result()`. -/
inductive FetchOutcome where
  | ok : Page → FetchOutcome
  | exn : String → FetchOutcome

/-- The entry the coordinator stores for a URL (app.py lines 391-401): the
future's page on normal return, and the handler's error dict
(`status = 'error: ...'`) when the future raised. -/
def coordinatorEntry (fetch : String → FetchOutcome) (u : String) : Page :=
  match fetch u with
  | FetchOutcome.ok pg => pg
  | FetchOutcome.exn e => ⟨u, "", "", "", "error: " ++ e⟩

/-- The `crawl_results` dict built by the `as_completed` loop (app.py
lines 385-405), as the association list of insertions in completion
order.  `order` is the completion order of the futures, an arbitrary
permutation of the requested URLs. -/
def coordinate (fetch : String → FetchOutcome) (order : List String) :
    List (String × Page) :=
  order.map (fun u => (u, coordinatorEntry fetch u))

/-- Dictionary lookup in the aggregated crawl results. -/
def dictFind (d : List (String × Page)) (u : String) : Option Page :=
  (d.find? (fun p => p.1 == u)).map (fun p => p.2)

/-- Example fetch for the C6 witness: URL "b" raises an unexpected
exception, URL "a" returns a successful page. -/
def exFetch : String → FetchOutcome :=
  fun u => if u == "b" then FetchOutcome.exn "boom"
    else FetchOutcome.ok ⟨u, "t", "h", "c", "success"⟩

/-- C4: the scorer at `(position=4, in_title=false, in_h1=false,
in_content=true, impressions=1200)` returns 65 = 30 + 15 + 10 + 10 with
exactly the four recommendations of the spec's worked example, in order. -/
theorem C4_scorer_example :
    scoreRecord 4 false false true 1200 =
      (65, ["Very close to top 3 - high priority",
            "Add keyword to title tag",
            "Add keyword to H1 tag",
            "High search volume keyword"]) ∧
    (65 : Nat) = 30 + 15 + 10 + 10 := by
  constructor
  · rfl
  · rfl

/-- C7: flipping any one presence boolean from true to false (the other
inputs fixed) never decreases the opportunity score. -/
theorem C7_score_monotone (position : Nat) (in_title in_h1 in_content : Bool)
    (impressions : Nat) :
    (scoreRecord position in_title in_h1 in_content impressions).1 ≤
      (scoreRecord position false in_h1 in_content impressions).1 ∧
    (scoreRecord position in_title in_h1 in_content impressions).1 ≤
      (scoreRecord position in_title false in_content impressions).1 ∧
    (scoreRecord position in_title in_h1 in_content impressions).1 ≤
      (scoreRecord position in_title in_h1 false impressions).1 := by
  cases in_title <;> cases in_h1 <;> cases in_content <;>
    simp [scoreRecord]

/-- C8: the presence check returns false whenever the keyword or the text
is empty; on non-empty inputs it returns true exactly when the lowercased
keyword is a substring of the lowercased text.  (The Lean function is
total, so the "never raises" part of the claim holds by construction.) -/
theorem C8_presence_contract (keyword text : String) :
    ((keyword = "" ∨ text = "") → check_keyword_presence keyword text = false) ∧
    (keyword ≠ "" → text ≠ "" →
      (check_keyword_presence keyword text = true ↔
        lcChars keyword <:+: lcChars text)) := by
  constructor
  · intro h
    rcases h with h | h <;> simp [check_keyword_presence, h]
  · intro hk ht
    simp [check_keyword_presence, hk, ht]

/-- Witness for C8: concrete non-empty inputs where the case-insensitive
containment holds, so the check returns true. -/
theorem C8_presence_contract_witness :
    ("ab" : String) ≠ "" ∧ ("xABy" : String) ≠ "" ∧
      check_keyword_presence "ab" "xABy" = true :=
  ⟨by decide, by decide,
    ((C8_presence_contract "ab" "xABy").2 (by decide) (by decide)).mpr (by decide)⟩

theorem applyBlocklistTagged_eq (blocklist : List String) (rs : List Rec) :
    (applyBlocklistTagged blocklist rs).1 = (applyBlocklist blocklist rs).1 ∧
    (applyBlocklistTagged blocklist rs).2.map Prod.snd =
      (applyBlocklist blocklist rs).2 := by
  induction blocklist generalizing rs with
  | nil => simp [applyBlocklist, applyBlocklistTagged]
  | cons term rest ih =>
      simp [applyBlocklist, applyBlocklistTagged, List.map_map,
        (ih (rs.filter (fun r => !kwBlocked term r))).1,
        (ih (rs.filter (fun r => !kwBlocked term r))).2]

theorem applyBlocklist_fst_subset (blocklist : List String) (rs : List Rec)
    (r : Rec) (h : r ∈ (applyBlocklist blocklist rs).1) : r ∈ rs := by
  induction blocklist generalizing rs with
  | nil => simpa [applyBlocklist] using h
  | cons term rest ih =>
      have := ih (rs.filter (fun r => !kwBlocked term r)) h
      exact List.mem_of_mem_filter this

theorem applyBlocklist_snd_subset (blocklist : List String) (rs : List Rec)
    (r : Rec) (h : r ∈ (applyBlocklist blocklist rs).2) : r ∈ rs := by
  induction blocklist generalizing rs with
  | nil => simp [applyBlocklist] at h
  | cons term rest ih =>
      simp only [applyBlocklist, List.mem_append] at h
      rcases h with h | h
      · exact List.mem_of_mem_filter h
      · exact List.mem_of_mem_filter (ih _ h)

theorem applyBlocklist_of_not_mem (blocklist : List String) (rs : List Rec)
    (r : Rec) (h : r ∉ rs) :
    r ∉ (applyBlocklist blocklist rs).1 ∧
    (applyBlocklist blocklist rs).2.count r = 0 ∧
    ∀ t, (t, r) ∉ (applyBlocklistTagged blocklist rs).2 := by
  refine ⟨fun hc => h (applyBlocklist_fst_subset _ _ _ hc),
    List.count_eq_zero.mpr (fun hc => h (applyBlocklist_snd_subset _ _ _ hc)),
    fun t hc => h ?_⟩
  have : ((t, r) : String × Rec).2 ∈ (applyBlocklistTagged blocklist rs).2.map Prod.snd :=
    List.mem_map_of_mem Prod.snd hc
  rw [(applyBlocklistTagged_eq blocklist rs).2] at this
  exact applyBlocklist_snd_subset _ _ _ this

/-- Core of C3: a record occurring once in the input and matching at least
one blocklist term is absent from the filtered output, appears exactly
once in the removed collection, and every tagged removal of it carries the
first matching term of the blocklist. -/
theorem blocklist_removed_spec (blocklist : List String) (rs : List Rec)
    (r : Rec) (hmem : r ∈ rs) (honce : rs.count r = 1)
    (hmatch : blocklist.any (fun t => kwBlocked t r) = true) :
    r ∉ (applyBlocklist blocklist rs).1 ∧
    (applyBlocklist blocklist rs).2.count r = 1 ∧
    ∀ t, (t, r) ∈ (applyBlocklistTagged blocklist rs).2 →
      blocklist.find? (fun t2 => kwBlocked t2 r) = some t := by
  induction blocklist generalizing rs with
  | nil => simp at hmatch
  | cons term rest ih =>
      by_cases hb : kwBlocked term r = true
      · have hkept : r ∉ rs.filter (fun r => !kwBlocked term r) := by
          intro hc
          have := (List.mem_filter.mp hc).2
          simp [hb] at this
        obtain ⟨hf, hcnt, htag⟩ :=
          applyBlocklist_of_not_mem rest (rs.filter (fun r => !kwBlocked term r)) r hkept
        refine ⟨hf, ?_, ?_⟩
        · have hremoved : (rs.filter (fun r => kwBlocked term r)).count r = 1 := by
            rw [List.count_filter hb]
            exact honce
          simp [applyBlocklist, List.count_append, hremoved, hcnt]
        · intro t ht
          simp only [applyBlocklistTagged, List.mem_append, List.mem_map] at ht
          rcases ht with ⟨r2, _, heq⟩ | ht
          · have : t = term := (congrArg Prod.fst heq).symm
            subst this
            simp [List.find?, hb]
          · exact absurd ht (htag t)
      · have hb2 : kwBlocked term r = false := by
          cases hh : kwBlocked term r
          · rfl
          · exact absurd hh hb
        have hkept : r ∈ rs.filter (fun r => !kwBlocked term r) :=
          List.mem_filter.mpr ⟨hmem, by simp [hb2]⟩
        have hkcnt : (rs.filter (fun r => !kwBlocked term r)).count r = 1 := by
          rw [List.count_filter (by simp [hb2])]
          exact honce
        have hmatch2 : rest.any (fun t => kwBlocked t r) = true := by
          simpa [hb2] using hmatch
        obtain ⟨hf, hcnt, htag⟩ := ih _ hkept hkcnt hmatch2
        refine ⟨hf, ?_, ?_⟩
        · have hremoved : (rs.filter (fun r => kwBlocked term r)).count r = 0 := by
            rw [List.count_eq_zero]
            intro hc
            exact hb (List.mem_filter.mp hc).2
          simp [applyBlocklist, List.count_append, hremoved, hcnt]
        · intro t ht
          simp only [applyBlocklistTagged, List.mem_append, List.mem_map] at ht
          rcases ht with ⟨r2, hr2, heq⟩ | ht
          · have : r2 = r := congrArg Prod.snd heq
            subst this
            exact absurd (List.mem_filter.mp hr2).2 (by simp [hb2])
          · rw [List.find?]
            simp only [hb2]
            exact htag t ht

/-- C3: a record (occurring once) whose keyword matches more than one
blocklist term is recorded in the removed collection exactly once — by the
first matching term in blocklist order — and is absent from the filtered
output. -/
theorem C3_blocklist_first_match (blocklist : List String) (rs : List Rec)
    (r : Rec) (hmulti : 1 < blocklist.countP (fun t => kwBlocked t r))
    (hmem : r ∈ rs) (honce : rs.count r = 1) :
    r ∉ (applyBlocklist blocklist rs).1 ∧
    (applyBlocklist blocklist rs).2.count r = 1 ∧
    ∀ t, (t, r) ∈ (applyBlocklistTagged blocklist rs).2 →
      blocklist.find? (fun t2 => kwBlocked t2 r) = some t := by
  have hmatch : blocklist.any (fun t => kwBlocked t r) = true := by
    rcases List.countP_pos_iff.mp (Nat.lt_trans Nat.zero_lt_one hmulti) with
      ⟨t, hmem2, ht⟩
    exact List.any_eq_true.mpr ⟨t, hmem2, ht⟩
  exact blocklist_removed_spec blocklist rs r hmem honce hmatch

/-- Witness for C3: keyword "ab" matches both terms "a" and "b"; it is
removed once, tagged with the first term "a", and filtered out. -/
theorem C3_blocklist_first_match_witness :
    (1 < (["a", "b"] : List String).countP
        (fun t => kwBlocked t ⟨"u", "ab", 4, 0⟩)) ∧
    ((⟨"u", "ab", 4, 0⟩ : Rec) ∈ [(⟨"u", "ab", 4, 0⟩ : Rec)]) ∧
    ([(⟨"u", "ab", 4, 0⟩ : Rec)].count ⟨"u", "ab", 4, 0⟩ = 1) ∧
    ((⟨"u", "ab", 4, 0⟩ : Rec) ∉ (applyBlocklist ["a", "b"] [⟨"u", "ab", 4, 0⟩]).1 ∧
      (applyBlocklist ["a", "b"] [⟨"u", "ab", 4, 0⟩]).2.count ⟨"u", "ab", 4, 0⟩ = 1 ∧
      ∀ t, (t, (⟨"u", "ab", 4, 0⟩ : Rec)) ∈
          (applyBlocklistTagged ["a", "b"] [⟨"u", "ab", 4, 0⟩]).2 →
        (["a", "b"] : List String).find?
          (fun t2 => kwBlocked t2 ⟨"u", "ab", 4, 0⟩) = some t) :=
  ⟨by decide, by decide, by decide,
    C3_blocklist_first_match ["a", "b"] [⟨"u", "ab", 4, 0⟩] ⟨"u", "ab", 4, 0⟩
      (by decide) (by decide) (by decide)⟩

/-- C5: the filters run position-range, then impressions, then blocklist,
so every blocklist-removed record already satisfies the position range and
(when the impressions column is present) the impressions threshold. -/
theorem C5_filter_order (records : List Rec) (lo hi : Nat) (hasImpr : Bool)
    (minImpr : Nat) (blocklist : List String) (r : Rec)
    (h : r ∈ (applyFilters records lo hi hasImpr minImpr blocklist).2) :
    (lo ≤ r.position ∧ r.position ≤ hi) ∧
    (hasImpr = true → minImpr ≤ r.impressions) := by
  have hin := applyBlocklist_snd_subset blocklist _ r h
  cases hasImpr with
  | false =>
      simp [applyFilters, List.mem_filter] at hin
      exact ⟨hin.2, fun hc => Bool.noConfusion hc⟩
  | true =>
      simp [applyFilters, List.mem_filter] at hin
      exact ⟨hin.2.2, fun _ => hin.2.1⟩

/-- Witness for C5: a record removed by the blocklist indeed satisfies the
earlier position and impressions filters. -/
theorem C5_filter_order_witness :
    ((⟨"u", "near me", 4, 100⟩ : Rec) ∈
      (applyFilters [⟨"u", "near me", 4, 100⟩] 3 20 true 10 ["near me"]).2) ∧
    ((3 ≤ (4 : Nat) ∧ (4 : Nat) ≤ 20) ∧ (true = true → (10 : Nat) ≤ 100)) :=
  ⟨by decide,
    C5_filter_order [⟨"u", "near me", 4, 100⟩] 3 20 true 10 ["near me"]
      ⟨"u", "near me", 4, 100⟩ (by decide)⟩

theorem sortAscBy_cons {α : Type} (key : α → Nat) (x : α) (l : List α) :
    sortAscBy key (x :: l) = insertAsc key x (sortAscBy key l) := rfl

theorem sortDescBy_cons {α : Type} (key : α → Nat) (x : α) (l : List α) :
    sortDescBy key (x :: l) = insertDesc key x (sortDescBy key l) := rfl

theorem mem_insertAsc {α : Type} (key : α → Nat) (x a : α) (l : List α) :
    a ∈ insertAsc key x l ↔ a = x ∨ a ∈ l := by
  induction l with
  | nil => simp [insertAsc]
  | cons y ys ih =>
      by_cases h : key x ≤ key y
      · simp [insertAsc, h]
      · simp only [insertAsc, if_neg h, List.mem_cons, ih]
        tauto

theorem mem_sortAscBy {α : Type} (key : α → Nat) (a : α) (l : List α) :
    a ∈ sortAscBy key l ↔ a ∈ l := by
  induction l with
  | nil => simp [sortAscBy]
  | cons x xs ih => simp [sortAscBy_cons, mem_insertAsc, ih]

theorem mem_insertDesc {α : Type} (key : α → Nat) (x a : α) (l : List α) :
    a ∈ insertDesc key x l ↔ a = x ∨ a ∈ l := by
  induction l with
  | nil => simp [insertDesc]
  | cons y ys ih =>
      by_cases h : key y ≤ key x
      · simp [insertDesc, h]
      · simp only [insertDesc, if_neg h, List.mem_cons, ih]
        tauto

theorem mem_sortDescBy {α : Type} (key : α → Nat) (a : α) (l : List α) :
    a ∈ sortDescBy key l ↔ a ∈ l := by
  induction l with
  | nil => simp [sortDescBy]
  | cons x xs ih => simp [sortDescBy_cons, mem_insertDesc, ih]

theorem pairwise_insertDesc {α : Type} (key : α → Nat) (x : α) (l : List α)
    (h : List.Pairwise (fun a b => key b ≤ key a) l) :
    List.Pairwise (fun a b => key b ≤ key a) (insertDesc key x l) := by
  induction l with
  | nil => simp [insertDesc]
  | cons y ys ih =>
      rw [List.pairwise_cons] at h
      by_cases hxy : key y ≤ key x
      · simp only [insertDesc, if_pos hxy]
        refine List.pairwise_cons.mpr ⟨?_, List.pairwise_cons.mpr ⟨h.1, h.2⟩⟩
        intro z hz
        rcases List.mem_cons.mp hz with rfl | hz2
        · exact hxy
        · exact le_trans (h.1 z hz2) hxy
      · simp only [insertDesc, if_neg hxy]
        refine List.pairwise_cons.mpr ⟨?_, ih h.2⟩
        intro z hz
        rcases (mem_insertDesc key x z ys).mp hz with rfl | hz2
        · exact Nat.le_of_lt (Nat.lt_of_not_le hxy)
        · exact h.1 z hz2

theorem sortDescBy_sorted {α : Type} (key : α → Nat) (l : List α) :
    List.Pairwise (fun a b => key b ≤ key a) (sortDescBy key l) := by
  induction l with
  | nil => simp [sortDescBy]
  | cons x xs ih =>
      rw [sortDescBy_cons]
      exact pairwise_insertDesc key x _ ih

theorem perm_insertDesc {α : Type} (key : α → Nat) (x : α) (l : List α) :
    (insertDesc key x l).Perm (x :: l) := by
  induction l with
  | nil => exact List.Perm.refl _
  | cons y ys ih =>
      by_cases hxy : key y ≤ key x
      · simp only [insertDesc, if_pos hxy]
        exact List.Perm.refl _
      · simp only [insertDesc, if_neg hxy]
        exact (ih.cons y).trans (List.Perm.swap x y ys)

theorem perm_sortDescBy {α : Type} (key : α → Nat) (l : List α) :
    (sortDescBy key l).Perm l := by
  induction l with
  | nil => exact List.Perm.refl _
  | cons x xs ih =>
      rw [sortDescBy_cons]
      exact (perm_insertDesc key x (sortDescBy key xs)).trans (ih.cons x)

theorem matchRecord_record (pg : Page) (r : Rec) :
    (matchRecord pg r).record = r := rfl

theorem fetchSuccess_iff (crawl : String → Option Page) (u : String) :
    fetchSuccess crawl u = true ↔
      ∃ pg, crawl u = some pg ∧ pg.status = "success" := by
  unfold fetchSuccess
  cases hcr : crawl u with
  | none => simp
  | some pg => simp

theorem fetchSuccess_eq_false (crawl : String → Option Page) (u : String)
    (h : ¬ fetchSuccess crawl u = true) : fetchSuccess crawl u = false := by
  cases hq : fetchSuccess crawl u
  · rfl
  · exact absurd hq h

theorem resultRowOf_eq_some (crawl : String → Option Page) (r : Rec)
    (m : Matched) :
    resultRowOf crawl r = some m ↔
      ∃ pg, crawl r.url = some pg ∧ pg.status = "success" ∧
        m = matchRecord pg r := by
  unfold resultRowOf
  cases hcr : crawl r.url with
  | none => simp
  | some pg =>
      by_cases hs : pg.status = "success"
      · simp [hs, eq_comm]
      · simp [hs]

theorem results_mem_iff (crawl : String → Option Page) (l : List Rec)
    (m : Matched) :
    m ∈ (buildResults crawl l).1 ↔ ∃ r ∈ l, resultRowOf crawl r = some m := by
  simp [buildResults, List.mem_filterMap]

theorem notFoundRow_eq_some (crawl : String → Option Page) (r : Rec)
    (p : String × String) :
    (if fetchSuccess crawl r.url then none else some (r.url, r.keyword)) =
        some p ↔
      fetchSuccess crawl r.url = false ∧ p = (r.url, r.keyword) := by
  by_cases hs : fetchSuccess crawl r.url
  · simp [hs]
  · rw [Bool.not_eq_true] at hs
    simp [hs, eq_comm]

theorem notFound_mem_iff (crawl : String → Option Page) (l : List Rec)
    (u k : String) :
    (u, k) ∈ (buildResults crawl l).2 ↔
      ∃ r ∈ l, fetchSuccess crawl r.url = false ∧ r.url = u ∧
        r.keyword = k := by
  simp only [buildResults, List.mem_filterMap, notFoundRow_eq_some,
    Prod.mk.injEq]
  constructor
  · rintro ⟨r, hr, hf, hu, hk⟩
    exact ⟨r, hr, hf, hu.symm, hk.symm⟩
  · rintro ⟨r, hr, hf, hu, hk⟩
    exact ⟨r, hr, hf, hu.symm, hk.symm⟩

theorem results_fetchSuccess (crawl : String → Option Page) (l : List Rec)
    (m : Matched) (hm : m ∈ (buildResults crawl l).1) :
    fetchSuccess crawl m.record.url = true := by
  obtain ⟨r, _, hf⟩ := (results_mem_iff crawl l m).mp hm
  obtain ⟨pg, hc, hs, he⟩ := (resultRowOf_eq_some crawl r m).mp hf
  subst he
  rw [matchRecord_record]
  exact (fetchSuccess_iff crawl r.url).mpr ⟨pg, hc, hs⟩

theorem results_eq_of_record_eq (crawl : String → Option Page) (l : List Rec)
    (m1 m2 : Matched) (h1 : m1 ∈ (buildResults crawl l).1)
    (h2 : m2 ∈ (buildResults crawl l).1) (h : m1.record = m2.record) :
    m1 = m2 := by
  obtain ⟨r1, _, hf1⟩ := (results_mem_iff crawl l m1).mp h1
  obtain ⟨r2, _, hf2⟩ := (results_mem_iff crawl l m2).mp h2
  obtain ⟨pg1, hc1, _, he1⟩ := (resultRowOf_eq_some crawl r1 m1).mp hf1
  obtain ⟨pg2, hc2, _, he2⟩ := (resultRowOf_eq_some crawl r2 m2).mp hf2
  have hr : r1 = r2 := by
    rw [he1, he2, matchRecord_record, matchRecord_record] at h
    exact h
  subst hr
  rw [hc1] at hc2
  injection hc2 with hpg
  rw [he1, he2, hpg]

theorem matched_not_both (m : Matched) :
    ¬ ((m.in_title && m.in_h1 && m.in_content) = true ∧
       (!m.in_title || !m.in_h1 || !m.in_content) = true) := by
  rcases m with ⟨r, t, h1, c⟩
  cases t <;> cases h1 <;> cases c <;> simp

theorem striking_cond_of_not_all (m : Matched)
    (hb : ¬ (m.in_title && m.in_h1 && m.in_content) = true) :
    (!m.in_title || !m.in_h1 || !m.in_content) = true := by
  rcases m with ⟨r, t, h1, c⟩
  cases t <;> cases h1 <;> cases c <;> simp_all

theorem mem_mergeScores (left : List Matched) (opps : List Opp) (m : Matched) :
    (∃ row ∈ mergeScores left opps, row.m = m) ↔ m ∈ left := by
  induction left with
  | nil => simp [mergeScores]
  | cons m0 rest ih =>
      constructor
      · rintro ⟨row, hrow, hm⟩
        simp only [mergeScores] at hrow
        rcases List.mem_append.mp hrow with hg | hg
        · refine List.mem_cons.mpr (Or.inl ?_)
          subst hm
          cases hfil : opps.filter (fun o =>
              o.url == m0.record.url && o.keyword == m0.record.keyword) with
          | nil =>
              rw [hfil] at hg
              simp only [List.mem_singleton] at hg
              rw [hg]
          | cons o os =>
              rw [hfil] at hg
              simp only [List.mem_map] at hg
              obtain ⟨o2, _, heq⟩ := hg
              rw [← heq]
        · exact List.mem_cons.mpr (Or.inr (ih.mp ⟨row, hg, hm⟩))
      · intro hmem
        rcases List.mem_cons.mp hmem with rfl | hmem2
        · cases hfil : opps.filter (fun o =>
              o.url == m.record.url && o.keyword == m.record.keyword) with
          | nil =>
              refine ⟨⟨m, none⟩, ?_, rfl⟩
              simp only [mergeScores]
              rw [hfil]
              exact List.mem_append.mpr (Or.inl (by simp))
          | cons o os =>
              refine ⟨⟨m, some (o.opportunity_score, o.recommendations)⟩, ?_, rfl⟩
              simp only [mergeScores]
              rw [hfil]
              refine List.mem_append.mpr (Or.inl ?_)
              simp only [List.mem_map]
              exact ⟨o, by simp, rfl⟩
        · obtain ⟨row, hrow, hm⟩ := ih.mpr hmem2
          refine ⟨row, ?_, hm⟩
          simp only [mergeScores]
          exact List.mem_append.mpr (Or.inr hrow)

theorem striking1Of_eq (P : Params) :
    striking1Of P = sortAscBy (fun m2 => m2.record.position) (striking0Of P) :=
  rfl

theorem mem_strikingFinal (P : Params) (m : Matched) :
    (∃ row ∈ strikingFinalOf P, row.m = m) ↔ m ∈ striking0Of P := by
  constructor
  · rintro ⟨row, hrow, hm⟩
    have h2 : row ∈ mergedOf P :=
      (mem_sortDescBy rowScore row (mergedOf P)).mp hrow
    have h3 : m ∈ striking1Of P :=
      (mem_mergeScores (striking1Of P) (opportunitiesOf P) m).mp ⟨row, h2, hm⟩
    rw [striking1Of_eq] at h3
    exact (mem_sortAscBy (fun m2 => m2.record.position) m (striking0Of P)).mp h3
  · intro h
    have h1 : m ∈ striking1Of P := by
      rw [striking1Of_eq]
      exact (mem_sortAscBy (fun m2 => m2.record.position) m (striking0Of P)).mpr h
    obtain ⟨row, hrow, hm⟩ :=
      (mem_mergeScores (striking1Of P) (opportunitiesOf P) m).mpr h1
    exact ⟨row, (mem_sortDescBy rowScore row (mergedOf P)).mpr hrow, hm⟩

/-- C1: every filtered record lands in exactly one of the three output
buckets: fully optimized, striking distance (final, score-attached output),
or URLs not found. -/
theorem C1_partition (P : Params) (r : Rec) (h : r ∈ filteredOf P) :
    ExactlyOneOfThree
      (∃ m ∈ (runPipeline P).all_checks_passed, m.record = r)
      (∃ row ∈ (runPipeline P).striking_distance, row.m.record = r)
      ((r.url, r.keyword) ∈ (runPipeline P).urls_not_found) := by
  have e1 : (runPipeline P).all_checks_passed = allPassedOf P := rfl
  have e2 : (runPipeline P).striking_distance = strikingFinalOf P := rfl
  have e3 : (runPipeline P).urls_not_found = notFoundOf P := rfl
  rw [e1, e2, e3]
  unfold ExactlyOneOfThree
  have hAimp : ∀ m, m ∈ allPassedOf P → m.record = r →
      fetchSuccess (crawlMapOf P) r.url = true ∧
        (m.in_title && m.in_h1 && m.in_content) = true := by
    intro m hm hrec
    have hres : m ∈ resultsOf P := List.mem_of_mem_filter hm
    have hcond := (List.mem_filter.mp hm).2
    have hfs := results_fetchSuccess (crawlMapOf P) (filteredOf P) m hres
    rw [hrec] at hfs
    exact ⟨hfs, hcond⟩
  have hBimp : ∀ row, row ∈ strikingFinalOf P → row.m.record = r →
      fetchSuccess (crawlMapOf P) r.url = true ∧ row.m ∈ striking0Of P := by
    intro row hrow hrec
    have h0 : row.m ∈ striking0Of P :=
      (mem_strikingFinal P row.m).mp ⟨row, hrow, rfl⟩
    have hres : row.m ∈ resultsOf P := List.mem_of_mem_filter h0
    have hfs := results_fetchSuccess (crawlMapOf P) (filteredOf P) row.m hres
    rw [hrec] at hfs
    exact ⟨hfs, h0⟩
  have hCimp : (r.url, r.keyword) ∈ notFoundOf P →
      fetchSuccess (crawlMapOf P) r.url = false := by
    intro hc
    obtain ⟨r2, _, hfs, hu, _⟩ :=
      (notFound_mem_iff (crawlMapOf P) (filteredOf P) r.url r.keyword).mp hc
    rw [← hu]
    exact hfs
  have hAB : ¬ ((∃ m ∈ allPassedOf P, m.record = r) ∧
      ∃ row ∈ strikingFinalOf P, row.m.record = r) := by
    rintro ⟨⟨mA, hmA, hmArec⟩, ⟨row, hrowB, hrowrec⟩⟩
    have h0 := (hBimp row hrowB hrowrec).2
    have hresA : mA ∈ resultsOf P := List.mem_of_mem_filter hmA
    have hresB : row.m ∈ resultsOf P := List.mem_of_mem_filter h0
    have heq : mA = row.m :=
      results_eq_of_record_eq (crawlMapOf P) (filteredOf P) mA row.m hresA
        hresB (by rw [hmArec, hrowrec])
    exact matched_not_both row.m
      ⟨heq ▸ (List.mem_filter.mp hmA).2, (List.mem_filter.mp h0).2⟩
  by_cases hs : fetchSuccess (crawlMapOf P) r.url = true
  · obtain ⟨pg, hpg, hst⟩ := (fetchSuccess_iff (crawlMapOf P) r.url).mp hs
    have hrowk : resultRowOf (crawlMapOf P) r = some (matchRecord pg r) :=
      (resultRowOf_eq_some (crawlMapOf P) r (matchRecord pg r)).mpr
        ⟨pg, hpg, hst, rfl⟩
    have hres : matchRecord pg r ∈ resultsOf P :=
      (results_mem_iff (crawlMapOf P) (filteredOf P) (matchRecord pg r)).mpr
        ⟨r, h, hrowk⟩
    have hAC : ¬ ((∃ m ∈ allPassedOf P, m.record = r) ∧
        (r.url, r.keyword) ∈ notFoundOf P) := by
      rintro ⟨_, hC⟩
      rw [hCimp hC] at hs
      exact Bool.noConfusion hs
    have hBC : ¬ ((∃ row ∈ strikingFinalOf P, row.m.record = r) ∧
        (r.url, r.keyword) ∈ notFoundOf P) := by
      rintro ⟨_, hC⟩
      rw [hCimp hC] at hs
      exact Bool.noConfusion hs
    by_cases hb : ((matchRecord pg r).in_title && (matchRecord pg r).in_h1 &&
        (matchRecord pg r).in_content) = true
    · exact ⟨Or.inl ⟨matchRecord pg r, List.mem_filter.mpr ⟨hres, hb⟩,
        matchRecord_record pg r⟩, hAB, hAC, hBC⟩
    · have hstrike : matchRecord pg r ∈ striking0Of P :=
        List.mem_filter.mpr ⟨hres, striking_cond_of_not_all _ hb⟩
      obtain ⟨row, hrowmem, hrowm⟩ :=
        (mem_strikingFinal P (matchRecord pg r)).mpr hstrike
      exact ⟨Or.inr (Or.inl ⟨row, hrowmem, by
        rw [hrowm, matchRecord_record]⟩), hAB, hAC, hBC⟩
  · have hsf : fetchSuccess (crawlMapOf P) r.url = false :=
      fetchSuccess_eq_false (crawlMapOf P) r.url hs
    have hC : (r.url, r.keyword) ∈ notFoundOf P :=
      (notFound_mem_iff (crawlMapOf P) (filteredOf P) r.url r.keyword).mpr
        ⟨r, h, hsf, rfl, rfl⟩
    refine ⟨Or.inr (Or.inr hC), hAB, ?_, ?_⟩
    · rintro ⟨⟨mA, hmA, hmArec⟩, _⟩
      exact hs (hAimp mA hmA hmArec).1
    · rintro ⟨⟨row, hrow, hrowrec⟩, _⟩
      exact hs (hBimp row hrow hrowrec).1

/-- Witness for C1 at a concrete input. -/
theorem C1_partition_witness :
    ((⟨"u", "kw", 4, 100⟩ : Rec) ∈ filteredOf exP1) ∧
    ExactlyOneOfThree
      (∃ m ∈ (runPipeline exP1).all_checks_passed, m.record = ⟨"u", "kw", 4, 100⟩)
      (∃ row ∈ (runPipeline exP1).striking_distance,
        row.m.record = ⟨"u", "kw", 4, 100⟩)
      (("u", "kw") ∈ (runPipeline exP1).urls_not_found) :=
  ⟨by decide, C1_partition exP1 ⟨"u", "kw", 4, 100⟩ (by decide)⟩

theorem pdUnique_mem (l : List String) (seen : List String) (u : String)
    (h : u ∈ pdUnique seen l) : u ∈ l ∧ u ∉ seen := by
  induction l generalizing seen with
  | nil => simp [pdUnique] at h
  | cons v vs ih =>
      unfold pdUnique at h
      by_cases hv : seen.contains v
      · rw [if_pos hv] at h
        obtain ⟨h1, h2⟩ := ih seen h
        exact ⟨List.mem_cons.mpr (Or.inr h1), h2⟩
      · rw [if_neg hv] at h
        rcases List.mem_cons.mp h with rfl | h2
        · refine ⟨List.mem_cons.mpr (Or.inl rfl), fun hc => hv ?_⟩
          exact List.elem_iff.mpr hc
        · obtain ⟨h3, h4⟩ := ih (v :: seen) h2
          exact ⟨List.mem_cons.mpr (Or.inr h3),
            fun hc => h4 (List.mem_cons.mpr (Or.inr hc))⟩

theorem pdUnique_nodup (l : List String) (seen : List String) :
    (pdUnique seen l).Nodup := by
  induction l generalizing seen with
  | nil => simp [pdUnique]
  | cons v vs ih =>
      unfold pdUnique
      by_cases hv : seen.contains v
      · rw [if_pos hv]
        exact ih seen
      · rw [if_neg hv]
        refine List.nodup_cons.mpr ⟨?_, ih (v :: seen)⟩
        intro hc
        exact (pdUnique_mem vs (v :: seen) v hc).2 (List.mem_cons.mpr (Or.inl rfl))

/-- C10: with more distinct URLs than the cap, the crawled list is a
duplicate-free list of at most `maxUrls` URLs drawn from the filtered
records, and a filtered record whose URL is not among them produces no
matched row and is routed to the not-found bucket with its url and
keyword. -/
theorem C10_maxUrls_cap (P : Params) (r : Rec) (hmem : r ∈ filteredOf P)
    (hout : r.url ∉ crawledUrlsOf P) :
    ((r.url, r.keyword) ∈ (runPipeline P).urls_not_found) ∧
    (¬ ∃ m ∈ resultsOf P, m.record = r) ∧
    (crawledUrlsOf P).Nodup ∧
    (crawledUrlsOf P).length ≤ P.maxUrls ∧
    (∀ u ∈ crawledUrlsOf P, u ∈ (filteredOf P).map (fun r2 => r2.url)) := by
  have hcontains : (crawledUrlsOf P).contains r.url = false := by
    cases hq : (crawledUrlsOf P).contains r.url
    · rfl
    · exact absurd (List.elem_iff.mp hq) hout
  have hcrawl : crawlMapOf P r.url = none := by
    unfold crawlMapOf
    simp [hcontains, hout]
  have hfs : fetchSuccess (crawlMapOf P) r.url = false := by
    unfold fetchSuccess
    rw [hcrawl]
  refine ⟨?_, ?_, ?_, ?_, ?_⟩
  · exact (notFound_mem_iff (crawlMapOf P) (filteredOf P) r.url r.keyword).mpr
      ⟨r, hmem, hfs, rfl, rfl⟩
  · rintro ⟨m, hm, hrec⟩
    have := results_fetchSuccess (crawlMapOf P) (filteredOf P) m hm
    rw [hrec, hfs] at this
    exact Bool.noConfusion this
  · exact (pdUnique_nodup ((filteredOf P).map (fun r2 => r2.url)) []).sublist
      (List.take_sublist P.maxUrls _)
  · exact List.length_take_le P.maxUrls _
  · intro u hu
    have h1 : u ∈ pdUnique [] ((filteredOf P).map (fun r2 => r2.url)) :=
      List.take_subset P.maxUrls _ hu
    exact (pdUnique_mem _ [] u h1).1

/-- Witness for C10 at a concrete input. -/
theorem C10_maxUrls_cap_witness :
    ((⟨"u2", "b", 6, 0⟩ : Rec) ∈ filteredOf exP10) ∧
    ("u2" ∉ crawledUrlsOf exP10) ∧
    ((("u2", "b") ∈ (runPipeline exP10).urls_not_found) ∧
      (¬ ∃ m ∈ resultsOf exP10, m.record = ⟨"u2", "b", 6, 0⟩) ∧
      (crawledUrlsOf exP10).Nodup ∧
      (crawledUrlsOf exP10).length ≤ exP10.maxUrls ∧
      (∀ u ∈ crawledUrlsOf exP10,
        u ∈ (filteredOf exP10).map (fun r2 => r2.url))) :=
  ⟨by decide, by decide,
    C10_maxUrls_cap exP10 ⟨"u2", "b", 6, 0⟩ (by decide) (by decide)⟩

theorem strikingFinalOf_eq (P : Params) :
    strikingFinalOf P = sortDescBy rowScore (mergedOf P) := rfl

/-- C2 (amended): the final striking-distance output is the merged,
score-attached row set sorted by opportunity score descending; records
with equal opportunity scores are not guaranteed to retain their relative
order from the original filtered input (see `C2_counterexample`: the
intermediate position sort already reorders them before scores are
attached, and the final pandas sort gives no stability guarantee of its
own).  Both conjuncts proved here — descending sortedness and being a
permutation of the merged rows — hold for any correct implementation of
`sort_values`, stable or not. -/
theorem C2_final_sort_amended (P : Params) :
    List.Pairwise (fun a b => rowScore b ≤ rowScore a) (strikingFinalOf P) ∧
    (strikingFinalOf P).Perm (mergedOf P) := by
  rw [strikingFinalOf_eq]
  exact ⟨sortDescBy_sorted rowScore (mergedOf P),
    perm_sortDescBy rowScore (mergedOf P)⟩

/-- Counterexample to C2 as stated: both records survive filtering (in
order "a", "b"), both land in striking distance with equal score 50, yet
the final output is ["b", "a"] — the claimed tie-break by original filter
order would require ["a", "b"].  The intermediate
`sort_values('position')` (app.py line 455) reorders equal-score records
by ascending position before the score sort. -/
theorem C2_counterexample :
    filteredOf exP2 = [⟨"u1", "a", 10, 0⟩, ⟨"u2", "b", 6, 0⟩] ∧
    (strikingFinalOf exP2).map rowScore = [50, 50] ∧
    (strikingFinalOf exP2).map (fun row => row.m.record.keyword) = ["b", "a"] ∧
    ¬ ((strikingFinalOf exP2).map (fun row => row.m.record.keyword) =
        ["a", "b"]) := by
  decide

/-- C9 evaluation at the failing input: two surviving striking records
share the (url, keyword) key, and the merge on `['url','keyword']` (app.py
lines 463-467) cross-joins them, producing four output rows instead of
two — and attaches the sibling duplicate's score to each record (position
6 scores 50, yet a (6, 60) row appears). -/
theorem C9_duplicate_merge_blowup :
    (filteredOf exP9).length = 2 ∧
    (striking1Of exP9).length = 2 ∧
    (runPipeline exP9).striking_distance.length = 4 ∧
    (strikingFinalOf exP9).map
        (fun row => (row.m.record.position, rowScore row)) =
      [(4, 60), (6, 60), (4, 50), (6, 50)] := by
  decide

theorem coordinate_map_fst (fetch : String → FetchOutcome)
    (order : List String) :
    (coordinate fetch order).map Prod.fst = order := by
  induction order with
  | nil => rfl
  | cons v vs ih => simp only [coordinate, List.map_cons] at ih ⊢; rw [ih]

theorem dictFind_coordinate (fetch : String → FetchOutcome)
    (order : List String) (u : String) (h : u ∈ order) :
    dictFind (coordinate fetch order) u = some (coordinatorEntry fetch u) := by
  induction order with
  | nil => simp at h
  | cons v vs ih =>
      by_cases hvu : v = u
      · subst hvu
        simp [dictFind, coordinate, List.find?]
      · have h2 : u ∈ vs := by
          rcases List.mem_cons.mp h with h3 | h3
          · exact absurd h3.symm hvu
          · exact h3
        have hbeq : (v == u) = false := by
          simpa using hvu
        simp only [dictFind, coordinate, List.map_cons, List.find?, hbeq]
        exact ih h2

/-- C6: for any completion order of the futures, the aggregated crawl map
covers each requested URL exactly once, the stored entry is determined by
that URL's fetch outcome alone, and an unexpected exception is converted
into an entry with an error status rather than lost. -/
theorem C6_coordinator (fetch : String → FetchOutcome) (urls order : List String)
    (hperm : order.Perm urls) (hnd : urls.Nodup) :
    ((coordinate fetch order).map Prod.fst).Perm urls ∧
    ∀ u ∈ urls,
      ((coordinate fetch order).map Prod.fst).count u = 1 ∧
      dictFind (coordinate fetch order) u = some (coordinatorEntry fetch u) ∧
      ∀ e, fetch u = FetchOutcome.exn e →
        (coordinatorEntry fetch u).status = "error: " ++ e := by
  rw [coordinate_map_fst]
  refine ⟨hperm, fun u hu => ⟨?_, ?_, ?_⟩⟩
  · rw [hperm.count_eq u]
    exact List.count_eq_one_of_mem hnd hu
  · exact dictFind_coordinate fetch order u (hperm.mem_iff.mpr hu)
  · intro e he
    unfold coordinatorEntry
    rw [he]

/-- Witness for C6 at a concrete input: two URLs completing in reverse
order, one of them raising. -/
theorem C6_coordinator_witness :
    (["b", "a"] : List String).Perm ["a", "b"] ∧
    (["a", "b"] : List String).Nodup ∧
    (((coordinate exFetch ["b", "a"]).map Prod.fst).Perm ["a", "b"] ∧
      ∀ u ∈ (["a", "b"] : List String),
        ((coordinate exFetch ["b", "a"]).map Prod.fst).count u = 1 ∧
        dictFind (coordinate exFetch ["b", "a"]) u =
          some (coordinatorEntry exFetch u) ∧
        ∀ e, exFetch u = FetchOutcome.exn e →
          (coordinatorEntry exFetch u).status = "error: " ++ e) :=
  ⟨by decide, by decide,
    C6_coordinator exFetch ["a", "b"] ["b", "a"] (by decide) (by decide)⟩

end StrikingDistance
